import Mathlib

/-!
Shallow embedding of rasa's `MemoizationPolicy` and `AugmentedMemoizationPolicy`
(`rasa/core/policies/memoization.py`), together with the module-level helpers
`_get_max_applied_events_for_max_history` and `_trim_tracker_by_max_history`.

Conventions of the embedding:
* Python dicts become association lists; dict equality is extensional, so all
  table-level statements are phrased through `lookupGet`.
* The one stateful loop (`_create_lookup_from_states`) becomes a fold over an
  explicit accumulator holding the lookup table and the ambiguous-key set.
* `assert` failures and raised exceptions become `Except.error`.
* A dialogue `State` is, as in rasa, a string-keyed mapping of sub-states,
  which are string-keyed mappings of leaf values (a text or a tuple of texts);
  `json.dumps(states, sort_keys=True)` is modelled by an executable serializer
  that sorts keys at each level and uses the default Python separators.
-/

set_option maxRecDepth 4000

/-- The constant `ACTION_LISTEN_NAME` from `rasa.shared.core.constants`. -/
def actionListenName : String := "action_listen"

/-- Leaf values occurring in a rasa dialogue sub-state: a text, or a tuple of
texts (serialized by `json.dumps` as a string or an array). -/
inductive JsonLeaf
  | str (s : String)
  | arrTexts (items : List String)
deriving DecidableEq

/-- A sub-state: a string-keyed mapping (a Python dict) of leaf values. -/
abbrev SubState := List (String × JsonLeaf)

/-- A dialogue state, rasa's `State = Dict[Text, SubState]`: a mapping of
sub-state categories to sub-states. -/
abbrev State := List (String × SubState)

/-- Escaping performed by `json.dumps` on the characters that can occur here:
the double quote and the backslash get a backslash prefix. -/
def escapeJsonChar (c : Char) : List Char :=
  if c = '\x22' then ['\\', '\x22']
  else if c = '\\' then ['\\', '\\']
  else [c]

/-- Apply `escapeJsonChar` across a string. -/
def escapeJsonString (s : String) : String :=
  String.mk (s.data.foldr (fun c acc => escapeJsonChar c ++ acc) [])

/-- A JSON string literal: the escaped text between double quotes. -/
def renderJsonString (s : String) : String :=
  "\x22" ++ escapeJsonString s ++ "\x22"

/-- Serialization of a leaf value. -/
def renderLeaf : JsonLeaf → String
  | .str s => renderJsonString s
  | .arrTexts items =>
      "[" ++ String.intercalate ", " (items.map renderJsonString) ++ "]"

/-- Insert a keyed pair into a list sorted ascending by key. -/
def insertByKey {α : Type} (p : String × α) : List (String × α) → List (String × α)
  | [] => [p]
  | q :: rest => if p.1 < q.1 then p :: q :: rest else q :: insertByKey p rest

/-- Ascending-by-key insertion sort, modelling `sort_keys=True`. -/
def sortByKey {α : Type} (l : List (String × α)) : List (String × α) :=
  l.foldr insertByKey []

/-- Serialization of a sub-state with sorted keys. -/
def renderSubState (ss : SubState) : String :=
  "\x7b" ++ String.intercalate ", "
    ((sortByKey ss).map (fun kv => renderJsonString kv.1 ++ ": " ++ renderLeaf kv.2))
  ++ "\x7d"

/-- Serialization of a dialogue state with sorted keys. -/
def renderState (st : State) : String :=
  "\x7b" ++ String.intercalate ", "
    ((sortByKey st).map (fun kv => renderJsonString kv.1 ++ ": " ++ renderSubState kv.2))
  ++ "\x7d"

/-- `json.dumps(states, sort_keys=True)` for the list of states handed to
`_create_feature_key`. -/
def jsonDumpsStates (states : List State) : String :=
  "[" ++ String.intercalate ", " (states.map renderState) ++ "]"

/-- `feature_str.replace(CHR34, "")`: every double-quote character is removed
from the serialization, as in the source (quotes are stripped for aesthetic
reasons before compression). -/
def stripQuotes (s : String) : String :=
  String.mk (s.data.filter (fun c => c ≠ '\x22'))

/-- Modelled abstraction of `base64.b64encode(zlib.compress(...))`: that
pipeline is a deterministic and injective encoding of the serialized string,
so the embedding represents it by the identity encoding; equality of produced
keys then coincides with equality of the serialized strings, exactly as for
the injective zlib/base64 pipeline. -/
def compressEncode (s : String) : String := s

/-- The class attribute `ENABLE_FEATURE_STRING_COMPRESSION = True`. -/
def enableFeatureStringCompression : Bool := true

/-- `MemoizationPolicy._create_feature_key`. -/
def createFeatureKey (states : List State) : String :=
  let featureStr := stripQuotes (jsonDumpsStates states)
  if enableFeatureStringCompression then compressEncode featureStr else featureStr

/-- The lookup dictionary: feature key to action name. -/
abbrev LookupTable := List (String × String)

/-- Lookup of a key in the table. -/
def lookupGet : LookupTable → String → Option String
  | [], _ => none
  | (k, v) :: rest, key => if k = key then some v else lookupGet rest key

/-- Dict insertion of a key that is not present (new keys go to the end). -/
def lookupInsert (l : LookupTable) (key val : String) : LookupTable :=
  l ++ [(key, val)]

/-- `del lookup[key]`: remove the entry carrying `key` (table keys are unique,
since an entry is only ever inserted when its key is absent). -/
def lookupErase : LookupTable → String → LookupTable
  | [], _ => []
  | (k, v) :: rest, key =>
      if k = key then lookupErase rest key else (k, v) :: lookupErase rest key

/-- The feature key of a training example, `_create_feature_key(states)`. -/
def keyOf (ex : List State × String) : String := createFeatureKey ex.1

/-- One iteration of the training loop body of
`MemoizationPolicy._create_lookup_from_states`, acting on the accumulator made
of the lookup table and the ambiguous feature keys collected so far. -/
def lookupStep (acc : LookupTable × List String) (ex : List State × String) :
    LookupTable × List String :=
  if keyOf ex = "" then acc
  else if keyOf ex ∈ acc.2 then acc
  else
    match lookupGet acc.1 (keyOf ex) with
    | some recorded =>
        if recorded ≠ ex.2 then
          (lookupErase acc.1 (keyOf ex), keyOf ex :: acc.2)
        else acc
    | none => (lookupInsert acc.1 (keyOf ex) ex.2, acc.2)

/-- The full training loop of `_create_lookup_from_states` over pairs whose
single action has already been extracted; the first component of the result is
the lookup table, the second the ambiguous-key set. -/
def createLookupState (exs : List (List State × String)) :
    LookupTable × List String :=
  exs.foldl lookupStep ([], [])

/-- The lookup table produced by the training loop. -/
def createLookupCore (exs : List (List State × String)) : LookupTable :=
  (createLookupState exs).1

/-- The message of the assertion at the top of `_create_lookup_from_states`. -/
def assertionMessage (n : Nat) : String :=
  "The second dimension of trackers_as_action should be 1, instead of " ++
    toString n

/-- `MemoizationPolicy._create_lookup_from_states`.  The assertion on the
first action list and the index error raised by `actions[0]` on an empty list
are modelled as `Except.error`. -/
def createLookupFromStates (trackersAsStates : List (List State))
    (trackersAsActions : List (List String)) : Except String LookupTable :=
  if trackersAsStates = [] then Except.ok []
  else
    match trackersAsActions.head? with
    | none => Except.error "IndexError: list index out of range"
    | some firstActions =>
      if firstActions.length = 1 then
        match (trackersAsStates.zip trackersAsActions).mapM
            (fun p =>
              match p.2 with
              | [] => Except.error "IndexError: list index out of range"
              | a :: _ => Except.ok (p.1, a)) with
        | Except.error e => Except.error e
        | Except.ok pairs => Except.ok (createLookupCore pairs)
      else Except.error (assertionMessage firstActions.length)

/-- `MemoizationPolicy._recall_states`: `self.lookup.get(key(states))`. -/
def recallStates (lookup : LookupTable) (states : List State) : Option String :=
  lookupGet lookup (createFeatureKey states)

/-- Modelled from the spec: the domain / action-space descriptor is an ordered
list of action identifiers with index lookup (the `Domain` class is an
external collaborator, not part of the source file). -/
structure Domain where
  actionNames : List String
deriving DecidableEq

/-- Python `list.index` returning the first matching position, `None` when the
element is absent (the raising behaviour is handled at the call site). -/
def listIndex (name : String) : List String → Option Nat
  | [] => none
  | a :: rest => if a = name then some 0 else (listIndex name rest).map (· + 1)

/-- `Domain.index_for_action`, modelled from the spec as the index of the
action identifier in the ordered action list. -/
def indexForAction (d : Domain) (name : String) : Option Nat :=
  listIndex name d.actionNames

/-- Modelled from the spec: `Policy._default_predictions` (not part of the
source file) is the all-zero vector whose length is the size of the action
space. -/
def defaultPredictions (d : Domain) : List ℚ :=
  List.replicate d.actionNames.length 0

/-- `MemoizationPolicy._prediction_result`.  The confidence of the intent of
the latest user message is passed in as an optional scalar (its Python default
is 1.0); a missing action raises, modelled as `Except.error`. -/
def predictionResult (d : Domain) (useNluConfidenceAsScore : Bool)
    (nluConfidence : Option ℚ) (actionName : Option String) :
    Except String (List ℚ) :=
  let result := defaultPredictions d
  match actionName with
  | none => Except.ok result
  | some name =>
    if name = "" then Except.ok result
    else
      let score := if useNluConfidenceAsScore then nluConfidence.getD 1 else 1
      match indexForAction d name with
      | some i => Except.ok (result.set i score)
      | none => Except.error "ValueError: action not found in domain"

/-- `MemoizationPolicy.predict_action_probabilities` for the base policy: the
prediction states have already been computed by the featurizer, recall is
`_recall_states`, and a miss keeps the default predictions. -/
def predictActionProbabilities (lookup : LookupTable) (d : Domain)
    (useNluConfidenceAsScore : Bool) (nluConfidence : Option ℚ)
    (states : List State) : Except String (List ℚ) :=
  match recallStates lookup states with
  | some name => predictionResult d useNluConfidenceAsScore nluConfidence (some name)
  | none => Except.ok (defaultPredictions d)

/-- Applied events of the dialogue tracker: an `ActionExecuted` with its
optional action name, or any other applied event. -/
inductive Event
  | actionExecuted (actionName : Option String)
  | other (tag : String)
deriving DecidableEq

/-- The `isinstance(event, ActionExecuted)` test. -/
def isActionExecuted : Event → Bool
  | .actionExecuted _ => true
  | .other _ => false

/-- The `ActionExecuted` event for `action_listen`. -/
def listenEvent : Event := Event.actionExecuted (some actionListenName)

/-- Number of executed-action events in a log. -/
def countActions (events : List Event) : Nat :=
  (events.filter isActionExecuted).length

/-- The backward scan of `_get_max_applied_events_for_max_history`: it walks
the reversed event list carrying the running counts of events and of executed
actions. -/
def getMaxGo (maxHistory : Nat) : List Event → Nat → Nat → Option Nat
  | [], _, _ => none
  | e :: rest, numEvents, numActions =>
    match e with
    | .actionExecuted name =>
      if maxHistory < numActions + 1 ∧ name = some actionListenName then
        some (numEvents + 1)
      else getMaxGo maxHistory rest (numEvents + 1) (numActions + 1)
    | .other _ => getMaxGo maxHistory rest (numEvents + 1) numActions

/-- `_get_max_applied_events_for_max_history`; the guard `if not max_history`
is true both for `None` and for `0`. -/
def getMaxAppliedEventsForMaxHistory (events : List Event)
    (maxHistory : Option Nat) : Option Nat :=
  match maxHistory with
  | none => none
  | some mh => if mh = 0 then none else getMaxGo mh events.reverse 0 0

/-- `_trim_tracker_by_max_history`; the guard `if not max_applied_events` is
true both for `None` and for `0`, and `events[-n:]` keeps the last `n` applied
events. -/
def trimTrackerByMaxHistory (events : List Event) (maxHistory : Option Nat) :
    List Event :=
  match getMaxAppliedEventsForMaxHistory events maxHistory with
  | none => events
  | some n => if n = 0 then events else events.drop (events.length - n)

/-- The index of the first `ActionExecuted` event found by the scan in
`_strip_leading_events_until_action_executed`. -/
def idxOfFirstAction (events : List Event) : Option Nat :=
  events.findIdx? isActionExecuted

/-- The index of the second `ActionExecuted` event found by the same scan:
the first `ActionExecuted` strictly after the first one. -/
def idxOfSecondAction (events : List Event) : Option Nat :=
  (idxOfFirstAction events).bind fun i =>
    ((events.drop (i + 1)).findIdx? isActionExecuted).map fun j => i + 1 + j

/-- `AugmentedMemoizationPolicy._strip_leading_events_until_action_executed`:
truncate to the first (or, when `again` is set, the second) executed action;
`None` when no such action exists or nothing would remain. -/
def stripLeadingEventsUntilActionExecuted (events : List Event) (again : Bool) :
    Option (List Event) :=
  (match again with
   | true => idxOfSecondAction events
   | false => idxOfFirstAction events).bind fun i =>
    if events.drop i = [] then none else some (events.drop i)

/-- The while loop of `AugmentedMemoizationPolicy._recall_using_truncation`,
with the external featurizer `_prediction_states` passed in as the function
`ps` from the applied events to the prediction states. -/
def recallLoop (lookup : LookupTable) (ps : List Event → List State)
    (oldStates : List State) (events : List Event) : Option String :=
  let states := ps events
  if oldStates ≠ states then
    match recallStates lookup states with
    | some memorised => some memorised
    | none =>
      match h : stripLeadingEventsUntilActionExecuted events true with
      | none => none
      | some next => recallLoop lookup ps states next
  else
    match h : stripLeadingEventsUntilActionExecuted events true with
    | none => none
    | some next => recallLoop lookup ps oldStates next
termination_by events.length
decreasing_by
  all_goals
    simp only [stripLeadingEventsUntilActionExecuted, Option.bind_eq_some] at h
    obtain ⟨i, hsecond, hi⟩ := h
    by_cases hdrop : events.drop i = []
    · rw [if_pos hdrop] at hi
      exact absurd hi (by simp)
    · rw [if_neg hdrop] at hi
      have hnext : next = events.drop i := (Option.some.inj hi).symm
      have hipos : 1 ≤ i := by
        simp only [idxOfSecondAction, Option.bind_eq_some, Option.map_eq_some']
          at hsecond
        obtain ⟨i0, _, j, _, hij⟩ := hsecond
        omega
      have hlt : i < events.length := by
        by_contra hge
        exact hdrop (List.drop_eq_nil_of_le (by omega))
      have hlen : (events.drop i).length = events.length - i :=
        List.length_drop i events
      rw [hnext]
      omega

/-- `AugmentedMemoizationPolicy._recall_using_truncation`. -/
def recallUsingTruncation (lookup : LookupTable) (ps : List Event → List State)
    (maxHistory : Option Nat) (oldStates : List State) (events : List Event) :
    Option String :=
  match stripLeadingEventsUntilActionExecuted
      (trimTrackerByMaxHistory events maxHistory) false with
  | none => none
  | some truncated => recallLoop lookup ps oldStates truncated

/-! Concrete data used by the witnesses and counterexamples. -/

/-- A concrete dialogue state: one user sub-state with one intent. -/
def stA : State := [("user", [("intent", JsonLeaf.str "hello")])]

/-- A second concrete dialogue state with a different intent. -/
def stB : State := [("user", [("intent", JsonLeaf.str "bye")])]

/-- A state whose slot value is the text made of an opening bracket, the
letter a and a closing bracket. -/
def stQ : State := [("slots", [("requested", JsonLeaf.str "[a]")])]

/-- A structurally different state whose slot value is the one-element tuple
of the text a. -/
def stT : State := [("slots", [("requested", JsonLeaf.arrTexts ["a"])])]

/-- One complete dialogue turn: listen for the user, the user utterance, the
bot action. -/
def turnEvents (n : String) : List Event :=
  [Event.actionExecuted (some actionListenName),
   Event.other ("user_" ++ n),
   Event.actionExecuted (some ("utter_" ++ n))]

/-- An event log of five completed turns. -/
def log5 : List Event :=
  turnEvents "1" ++ turnEvents "2" ++ turnEvents "3" ++ turnEvents "4" ++
    turnEvents "5"

/-- A concrete two-action domain. -/
def domainW : Domain := ⟨["action_listen", "greet"]⟩

/-- A concrete lookup table memorizing one example. -/
def lookupW : LookupTable := createLookupCore [([stA], "greet")]

/-! Specification-side predicates used to characterize the built table. -/

/-- All examples of `p` carrying key `k` agree on the action `a`, and at least
one such example exists. -/
def agreesOn (p : List (List State × String)) (k : String) (a : String) : Prop :=
  (∃ ex ∈ p, keyOf ex = k ∧ ex.2 = a) ∧ ∀ ex ∈ p, keyOf ex = k → ex.2 = a

/-- Two examples of `p` carry the key `k` with different actions. -/
def conflicted (p : List (List State × String)) (k : String) : Prop :=
  ∃ ex ∈ p, ∃ ex' ∈ p, keyOf ex = k ∧ keyOf ex' = k ∧ ex.2 ≠ ex'.2

/-- The loop invariant tying the accumulator of `lookupStep` to the processed
prefix of the examples. -/
def LookupChar (p : List (List State × String))
    (st : LookupTable × List String) : Prop :=
  (∀ k a, lookupGet st.1 k = some a ↔ (k ≠ "" ∧ agreesOn p k a)) ∧
  (∀ k, k ∈ st.2 ↔ (k ≠ "" ∧ conflicted p k))

/-- The position condition met by the backward scan `getMaxGo` on the reversed
list `l`: the element at position `k - 1` is the listen action and the actions
seen up to it (plus the carried count `na`) exceed the bound. -/
def boundaryCond (mh : Nat) (l : List Event) (na : Nat) (k : Nat) : Prop :=
  l[k - 1]? = some listenEvent ∧ mh < na + countActions (l.take k)

/-! Association-list lemmas for the lookup table. -/

theorem lookupGet_append_of_some {l : LookupTable} {key w : String}
    (k v : String) (h : lookupGet l key = some w) :
    lookupGet (l ++ [(k, v)]) key = some w := by
  induction l with
  | nil => simp [lookupGet] at h
  | cons p rest ih =>
      obtain ⟨k', v'⟩ := p
      by_cases hk : k' = key
      · simp only [lookupGet, if_pos hk] at h ⊢
        exact h
      · simp only [lookupGet, if_neg hk] at h ⊢
        exact ih h

theorem lookupGet_append_of_none {l : LookupTable} {key : String}
    (k v : String) (h : lookupGet l key = none) :
    lookupGet (l ++ [(k, v)]) key = if k = key then some v else none := by
  induction l with
  | nil => simp [lookupGet]
  | cons p rest ih =>
      obtain ⟨k', v'⟩ := p
      by_cases hk : k' = key
      · simp only [lookupGet, if_pos hk] at h
        exact absurd h (by simp)
      · simp only [lookupGet, if_neg hk] at h ⊢
        exact ih h

theorem lookupGet_erase_self (l : LookupTable) (key : String) :
    lookupGet (lookupErase l key) key = none := by
  induction l with
  | nil => rfl
  | cons p rest ih =>
      obtain ⟨k', v'⟩ := p
      by_cases hk : k' = key
      · simpa [lookupErase, hk] using ih
      · simpa [lookupErase, hk, lookupGet] using ih

theorem lookupGet_erase_ne (l : LookupTable) {key key' : String}
    (h : key' ≠ key) :
    lookupGet (lookupErase l key) key' = lookupGet l key' := by
  induction l with
  | nil => rfl
  | cons p rest ih =>
      obtain ⟨k', v'⟩ := p
      by_cases hk : k' = key
      · have hne : ¬ k' = key' := fun hc => h ((hc.symm.trans hk) ▸ rfl)
        simp only [lookupErase, if_pos hk, lookupGet, if_neg hne]
        exact ih
      · by_cases hk2 : k' = key'
        · simp [lookupErase, hk, lookupGet, hk2, h]
        · simp only [lookupErase, if_neg hk, lookupGet, if_neg hk2]
          exact ih

/-! The feature key is never the empty string. -/

theorem stripQuotes_bracket_ne_empty (s : String) :
    stripQuotes ("[" ++ s) ≠ "" := by
  intro hcontra
  have hd : (stripQuotes ("[" ++ s)).data
      = '[' :: s.data.filter (fun c => c ≠ '\x22') := by
    simp [stripQuotes]
  rw [hcontra] at hd
  exact absurd hd (by simp)

theorem createFeatureKey_ne_empty (states : List State) :
    createFeatureKey states ≠ "" := by
  have h : createFeatureKey states =
      stripQuotes ("[" ++ (String.intercalate ", " (states.map renderState) ++ "]")) := by
    show stripQuotes (jsonDumpsStates states) = _
    unfold jsonDumpsStates
    rw [String.append_assoc]
  rw [h]
  exact stripQuotes_bracket_ne_empty _

theorem keyOf_ne_empty (ex : List State × String) : keyOf ex ≠ "" :=
  createFeatureKey_ne_empty ex.1

/-! Lemmas about the table-characterization predicates. -/

theorem agreesOn_append_irrel {p : List (List State × String)}
    {ex : List State × String} {k a : String} (hne : keyOf ex ≠ k) :
    agreesOn (p ++ [ex]) k a ↔ agreesOn p k a := by
  simp only [agreesOn, List.mem_append, List.mem_singleton]
  constructor
  · rintro ⟨⟨e, he, hk, ha⟩, hall⟩
    rcases he with he | he
    · exact ⟨⟨e, he, hk, ha⟩, fun e' he' hk' => hall e' (Or.inl he') hk'⟩
    · subst he; exact absurd hk hne
  · rintro ⟨⟨e, he, hk, ha⟩, hall⟩
    refine ⟨⟨e, Or.inl he, hk, ha⟩, ?_⟩
    rintro e' (he' | he') hk'
    · exact hall e' he' hk'
    · subst he'; exact absurd hk' hne

theorem agreesOn_append_self {p : List (List State × String)}
    {ex : List State × String} {k a : String} (hk : keyOf ex = k) :
    agreesOn (p ++ [ex]) k a ↔ (ex.2 = a ∧ ∀ e ∈ p, keyOf e = k → e.2 = a) := by
  simp only [agreesOn, List.mem_append, List.mem_singleton]
  constructor
  · rintro ⟨⟨e, he, hke, ha⟩, hall⟩
    exact ⟨hall ex (Or.inr rfl) hk, fun e' he' hk' => hall e' (Or.inl he') hk'⟩
  · rintro ⟨ha, hall⟩
    refine ⟨⟨ex, Or.inr rfl, hk, ha⟩, ?_⟩
    rintro e' (he' | he') hk'
    · exact hall e' he' hk'
    · subst he'; exact ha

theorem conflicted_append_irrel {p : List (List State × String)}
    {ex : List State × String} {k : String} (hne : keyOf ex ≠ k) :
    conflicted (p ++ [ex]) k ↔ conflicted p k := by
  simp only [conflicted, List.mem_append, List.mem_singleton]
  constructor
  · rintro ⟨e, he, e', he', hk, hk', hdiff⟩
    rcases he with he | he
    · rcases he' with he' | he'
      · exact ⟨e, he, e', he', hk, hk', hdiff⟩
      · subst he'; exact absurd hk' hne
    · subst he; exact absurd hk hne
  · rintro ⟨e, he, e', he', hk, hk', hdiff⟩
    exact ⟨e, Or.inl he, e', Or.inl he', hk, hk', hdiff⟩

theorem conflicted_append_self {p : List (List State × String)}
    {ex : List State × String} {k : String} (hk : keyOf ex = k) :
    conflicted (p ++ [ex]) k ↔
      (conflicted p k ∨ ∃ e ∈ p, keyOf e = k ∧ e.2 ≠ ex.2) := by
  simp only [conflicted, List.mem_append, List.mem_singleton]
  constructor
  · rintro ⟨e, he, e', he', hke, hke', hdiff⟩
    rcases he with he | he
    · rcases he' with he' | he'
      · exact Or.inl ⟨e, he, e', he', hke, hke', hdiff⟩
      · subst he'; exact Or.inr ⟨e, he, hke, hdiff⟩
    · subst he
      rcases he' with he' | he'
      · exact Or.inr ⟨e', he', hke', fun hc => hdiff hc.symm⟩
      · subst he'; exact absurd rfl hdiff
  · rintro (⟨e, he, e', he', hke, hke', hdiff⟩ | ⟨e, he, hke, hdiff⟩)
    · exact ⟨e, Or.inl he, e', Or.inl he', hke, hke', hdiff⟩
    · exact ⟨e, Or.inl he, ex, Or.inr rfl, hke, hk, hdiff⟩

theorem forall_agree_not_conflicted {p : List (List State × String)}
    {k a : String} (hall : ∀ e ∈ p, keyOf e = k → e.2 = a) :
    ¬ conflicted p k := by
  rintro ⟨e, he, e', he', hk, hk', hdiff⟩
  exact hdiff ((hall e he hk).trans (hall e' he' hk').symm)

theorem lookupChar_iff (L : LookupTable) (A : List String)
    (p : List (List State × String)) : LookupChar p (L, A) ↔
    (lookupGet L "" = none ∧ "" ∉ A ∧
     (∀ k, k ≠ "" → ∀ a, (lookupGet L k = some a ↔ agreesOn p k a)) ∧
     (∀ k, k ≠ "" → (k ∈ A ↔ conflicted p k))) := by
  unfold LookupChar
  constructor
  · rintro ⟨hL, hA⟩
    refine ⟨?_, ?_, fun k hk a => by rw [hL k a]; simp [hk], fun k hk => by rw [hA k]; simp [hk]⟩
    · cases hg : lookupGet L "" with
      | none => rfl
      | some a => exact absurd ((hL "" a).mp hg).1 (by simp)
    · intro hmem
      exact absurd ((hA "").mp hmem).1 (by simp)
  · rintro ⟨h0, h0A, hL, hA⟩
    refine ⟨fun k a => ?_, fun k => ?_⟩
    · by_cases hk : k = ""
      · subst hk
        constructor
        · intro hg; rw [h0] at hg; exact absurd hg (by simp)
        · rintro ⟨hne, _⟩; exact absurd rfl hne
      · rw [hL k hk a]; simp [hk]
    · by_cases hk : k = ""
      · subst hk
        constructor
        · intro hm; exact absurd hm h0A
        · rintro ⟨hne, _⟩; exact absurd rfl hne
      · rw [hA k hk]; simp [hk]

theorem char_nil : LookupChar [] ([], []) := by
  constructor
  · intro k a
    simp [lookupGet, agreesOn]
  · intro k
    simp [conflicted]

theorem agreesOn_congr_of_witness {p : List (List State × String)}
    {k b : String} (hag : agreesOn p k b) (a : String) :
    agreesOn p k a ↔ (b = a ∧ ∀ e ∈ p, keyOf e = k → e.2 = a) := by
  obtain ⟨⟨e, he, hke, hae⟩, hall⟩ := hag
  constructor
  · rintro ⟨⟨e', he', hke', hae'⟩, hall'⟩
    exact ⟨hae ▸ hall' e he hke, hall'⟩
  · rintro ⟨hba, hall'⟩
    exact ⟨⟨e, he, hke, hall' e he hke⟩, hall'⟩

theorem char_step {p : List (List State × String)} {st : LookupTable × List String}
    (ex : List State × String) (h : LookupChar p st) :
    LookupChar (p ++ [ex]) (lookupStep st ex) := by
  obtain ⟨L, A⟩ := st
  rw [lookupChar_iff] at h
  obtain ⟨h0, h0A, hL, hA⟩ := h
  have hkey : keyOf ex ≠ "" := keyOf_ne_empty ex
  by_cases hmem : keyOf ex ∈ A
  · have hstep : lookupStep (L, A) ex = (L, A) := by
      simp [lookupStep, hkey, hmem]
    rw [hstep, lookupChar_iff]
    have hconf : conflicted p (keyOf ex) := (hA _ hkey).mp hmem
    refine ⟨h0, h0A, fun k hk a => ?_, fun k hk => ?_⟩
    · by_cases hkk : keyOf ex = k
      · subst hkk
        rw [hL _ hkey a]
        refine iff_of_false (fun hag => forall_agree_not_conflicted hag.2 hconf) ?_
        rw [agreesOn_append_self rfl]
        rintro ⟨_, hall⟩
        exact forall_agree_not_conflicted hall hconf
      · rw [hL k hk a, agreesOn_append_irrel hkk]
    · by_cases hkk : keyOf ex = k
      · subst hkk
        rw [hA _ hkey, conflicted_append_self rfl]
        exact ⟨fun hc => Or.inl hc, fun _ => hconf⟩
      · rw [hA k hk, conflicted_append_irrel hkk]
  · cases hget : lookupGet L (keyOf ex) with
    | some recorded =>
        have hag : agreesOn p (keyOf ex) recorded := (hL _ hkey recorded).mp hget
        by_cases hne : recorded = ex.2
        · have hstep : lookupStep (L, A) ex = (L, A) := by
            simp [lookupStep, hkey, hmem, hget, hne]
          rw [hstep, lookupChar_iff]
          refine ⟨h0, h0A, fun k hk a => ?_, fun k hk => ?_⟩
          · by_cases hkk : keyOf ex = k
            · subst hkk
              rw [hL _ hkey a, agreesOn_append_self rfl,
                agreesOn_congr_of_witness hag, hne]
            · rw [hL k hk a, agreesOn_append_irrel hkk]
          · by_cases hkk : keyOf ex = k
            · subst hkk
              refine iff_of_false hmem ?_
              rw [conflicted_append_self rfl]
              rintro (hc | ⟨e, he, hke, hdiff⟩)
              · exact hmem ((hA _ hkey).mpr hc)
              · exact hdiff ((hag.2 e he hke).trans hne)
            · constructor
              · intro hc
                exact (conflicted_append_irrel hkk).mpr ((hA k hk).mp hc)
              · intro hc
                exact (hA k hk).mpr ((conflicted_append_irrel hkk).mp hc)
        · have hstep : lookupStep (L, A) ex =
              (lookupErase L (keyOf ex), keyOf ex :: A) := by
            simp [lookupStep, hkey, hmem, hget, hne]
          rw [hstep, lookupChar_iff]
          refine ⟨?_, ?_, fun k hk a => ?_, fun k hk => ?_⟩
          · rw [lookupGet_erase_ne L (Ne.symm hkey)]
            exact h0
          · intro hc
            rcases List.mem_cons.mp hc with hc | hc
            · exact hkey hc.symm
            · exact h0A hc
          · by_cases hkk : keyOf ex = k
            · subst hkk
              rw [lookupGet_erase_self]
              refine iff_of_false (by simp) ?_
              rw [agreesOn_append_self rfl]
              rintro ⟨hxa, hall⟩
              obtain ⟨⟨e, he, hke, hae⟩, _⟩ := hag
              exact hne ((hae.symm.trans (hall e he hke)).trans hxa.symm)
            · rw [lookupGet_erase_ne L (fun hc => hkk hc.symm), hL k hk a,
                agreesOn_append_irrel hkk]
          · by_cases hkk : keyOf ex = k
            · subst hkk
              refine iff_of_true (List.mem_cons_self _ _) ?_
              rw [conflicted_append_self rfl]
              obtain ⟨⟨e, he, hke, hae⟩, _⟩ := hag
              exact Or.inr ⟨e, he, hke, hae ▸ hne⟩
            · constructor
              · intro hc
                rcases List.mem_cons.mp hc with hc | hc
                · exact absurd hc.symm hkk
                · exact (conflicted_append_irrel hkk).mpr ((hA k hk).mp hc)
              · intro hc
                exact List.mem_cons_of_mem _
                  ((hA k hk).mpr ((conflicted_append_irrel hkk).mp hc))
    | none =>
        have hstep : lookupStep (L, A) ex = (L ++ [(keyOf ex, ex.2)], A) := by
          simp [lookupStep, hkey, hmem, hget, lookupInsert]
        rw [hstep, lookupChar_iff]
        have hnone : ∀ e ∈ p, keyOf e ≠ keyOf ex := by
          intro e he hke
          have hall : ∀ e' ∈ p, keyOf e' = keyOf ex → e'.2 = e.2 := by
            intro e' he' hke'
            by_contra hdiff
            exact hmem ((hA _ hkey).mpr ⟨e', he', e, he, hke', hke, hdiff⟩)
          have hag : agreesOn p (keyOf ex) e.2 := ⟨⟨e, he, hke, rfl⟩, hall⟩
          have hcontra := (hL _ hkey e.2).mpr hag
          rw [hget] at hcontra
          exact absurd hcontra (by simp)
        refine ⟨?_, h0A, fun k hk a => ?_, fun k hk => ?_⟩
        · rw [lookupGet_append_of_none _ _ h0, if_neg hkey]
        · by_cases hkk : keyOf ex = k
          · subst hkk
            rw [lookupGet_append_of_none _ _ hget, if_pos rfl,
              agreesOn_append_self rfl]
            constructor
            · intro hsome
              exact ⟨Option.some.inj hsome,
                fun e he hke => absurd hke (hnone e he)⟩
            · rintro ⟨hxa, _⟩
              rw [hxa]
          · have hsame : lookupGet (L ++ [(keyOf ex, ex.2)]) k = lookupGet L k := by
              cases hgk : lookupGet L k with
              | some w => exact lookupGet_append_of_some _ _ hgk
              | none => rw [lookupGet_append_of_none _ _ hgk, if_neg hkk]
            rw [hsame, hL k hk a, agreesOn_append_irrel hkk]
        · by_cases hkk : keyOf ex = k
          · subst hkk
            rw [hA _ hkey, conflicted_append_self rfl]
            constructor
            · exact fun hc => Or.inl hc
            · rintro (hc | ⟨e, he, hke, _⟩)
              · exact hc
              · exact absurd hke (hnone e he)
          · rw [hA k hk, conflicted_append_irrel hkk]

theorem char_foldl (exs : List (List State × String)) :
    ∀ (p : List (List State × String)) (st : LookupTable × List String),
      LookupChar p st → LookupChar (p ++ exs) (exs.foldl lookupStep st) := by
  induction exs with
  | nil => intro p st h; simpa using h
  | cons e rest ih =>
      intro p st h
      have h2 := ih (p ++ [e]) (lookupStep st e) (char_step e h)
      simpa [List.append_assoc] using h2

theorem createLookupState_char (exs : List (List State × String)) :
    LookupChar exs (createLookupState exs) := by
  have h := char_foldl exs [] ([], []) char_nil
  simpa [createLookupState] using h

theorem createLookupCore_get_iff (exs : List (List State × String))
    (k a : String) :
    lookupGet (createLookupCore exs) k = some a ↔ (k ≠ "" ∧ agreesOn exs k a) :=
  (createLookupState_char exs).1 k a

theorem createLookupState_amb_iff (exs : List (List State × String))
    (k : String) :
    k ∈ (createLookupState exs).2 ↔ (k ≠ "" ∧ conflicted exs k) :=
  (createLookupState_char exs).2 k

/-! Claim theorems for the lookup-table builder and the canonicalizer. -/

/-- C1: every key present in the built table maps to exactly one action: a key
observed with two different actions is excluded from the final table and lands
in the ambiguous-key set, and it never re-enters the table during the build. -/
theorem claim_C1_ambiguous_key_excluded
    (exs : List (List State × String)) (ex1 ex2 : List State × String)
    (h1 : ex1 ∈ exs) (h2 : ex2 ∈ exs) (hk : keyOf ex1 = keyOf ex2)
    (ha : ex1.2 ≠ ex2.2) :
    lookupGet (createLookupCore exs) (keyOf ex1) = none ∧
      keyOf ex1 ∈ (createLookupState exs).2 := by
  have hconf : conflicted exs (keyOf ex1) := ⟨ex1, h1, ex2, h2, rfl, hk.symm, ha⟩
  constructor
  · cases hget : lookupGet (createLookupCore exs) (keyOf ex1) with
    | none => rfl
    | some a =>
        have hag := (createLookupCore_get_iff exs _ a).mp hget
        exact absurd hconf (forall_agree_not_conflicted hag.2.2)
  · exact (createLookupState_amb_iff exs _).mpr ⟨keyOf_ne_empty ex1, hconf⟩

theorem claim_C1_witness :
    lookupGet (createLookupCore [([stA], "greet"), ([stA], "bye")])
        (keyOf ([stA], "greet")) = none ∧
      keyOf ([stA], "greet") ∈
        (createLookupState [([stA], "greet"), ([stA], "bye")]).2 :=
  claim_C1_ambiguous_key_excluded [([stA], "greet"), ([stA], "bye")]
    ([stA], "greet") ([stA], "bye") (by decide) (by decide) rfl (by decide)

/-- C2: base recall round-trips the built table: a retained pair keyed by the
canonicalization of a window `w` is recalled exactly on `w`, because build and
lookup use the same canonicalization function. -/
theorem claim_C2_recall_round_trip (ts : List (List State))
    (tas : List (List String)) (table : LookupTable) (w : List State)
    (a : String) (hbuild : createLookupFromStates ts tas = Except.ok table)
    (hpair : lookupGet table (createFeatureKey w) = some a) :
    recallStates table w = some a := hpair

theorem claim_C2_witness :
    recallStates lookupW [stA] = some "greet" :=
  claim_C2_recall_round_trip [[stA]] [["greet"]] lookupW [stA] "greet"
    (by rfl) (by decide)

/-- C3 counterexample: the training pass does not fail on a later example with
a two-action list; it silently takes the first action and builds the table. -/
theorem claim_C3_counterexample :
    createLookupFromStates [[stA], [stB]] [["greet"], ["affirm", "deny"]] =
        Except.ok (createLookupCore [([stA], "greet"), ([stB], "affirm")]) ∧
      recallStates (createLookupCore [([stA], "greet"), ([stB], "affirm")])
          [stB] = some "affirm" :=
  ⟨by rfl, by decide⟩

/-- C3 amended: only the first training example's action list is checked; when
its length differs from 1, the pass fails with the descriptive assertion
message (later malformed examples are silently truncated to their first
action, as the counterexample shows). -/
theorem claim_C3_assert_checks_first_example (ts : List (List State))
    (tas : List (List String)) (acts : List String)
    (hne : ts ≠ []) (hhead : tas.head? = some acts) (hlen : acts.length ≠ 1) :
    createLookupFromStates ts tas =
      Except.error (assertionMessage acts.length) := by
  cases ts with
  | nil => exact absurd rfl hne
  | cons t ts' =>
    cases tas with
    | nil => simp at hhead
    | cons acts0 tas' =>
      have hacts : acts0 = acts := by simpa using hhead
      subst hacts
      simp [createLookupFromStates, hlen]

theorem claim_C3_witness :
    createLookupFromStates [[stA]] [["affirm", "deny"]] =
      Except.error (assertionMessage 2) :=
  claim_C3_assert_checks_first_example [[stA]] [["affirm", "deny"]]
    ["affirm", "deny"] (by decide) (by rfl) (by decide)

/-- C6: the outcome of table construction is order-independent: permuting the
training examples leaves the built table extensionally unchanged, and a key
maps to an action exactly when it is non-empty and all its examples agree on
that action (so any key seen with two or more distinct actions is excluded
whatever the order). -/
theorem claim_C6_order_independent (exs exs' : List (List State × String))
    (hperm : exs.Perm exs') (k : String) :
    lookupGet (createLookupCore exs) k = lookupGet (createLookupCore exs') k ∧
    (∀ a, lookupGet (createLookupCore exs) k = some a ↔
      (k ≠ "" ∧ agreesOn exs k a)) := by
  have hag : ∀ a, agreesOn exs k a ↔ agreesOn exs' k a := by
    intro a
    simp only [agreesOn, hperm.mem_iff]
  constructor
  · cases hga : lookupGet (createLookupCore exs) k with
    | some a =>
        have h := (createLookupCore_get_iff exs k a).mp hga
        exact ((createLookupCore_get_iff exs' k a).mpr
          ⟨h.1, (hag a).mp h.2⟩).symm
    | none =>
        cases hgb : lookupGet (createLookupCore exs') k with
        | none => rfl
        | some b =>
            have h := (createLookupCore_get_iff exs' k b).mp hgb
            have hx := (createLookupCore_get_iff exs k b).mpr
              ⟨h.1, (hag b).mpr h.2⟩
            rw [hga] at hx
            exact absurd hx (by simp)
  · exact fun a => createLookupCore_get_iff exs k a

theorem claim_C6_witness :
    lookupGet (createLookupCore [([stA], "greet"), ([stB], "deny")])
        (createFeatureKey [stA]) =
      lookupGet (createLookupCore [([stB], "deny"), ([stA], "greet")])
        (createFeatureKey [stA]) :=
  (claim_C6_order_independent [([stA], "greet"), ([stB], "deny")]
    [([stB], "deny"), ([stA], "greet")]
    (List.Perm.swap ([stB], "deny") ([stA], "greet") [])
    (createFeatureKey [stA])).1

/-- C7 counterexample: the canonicalizer does not return an empty key on the
empty window; the empty window is serialized, stored by the builder, and
recalled at prediction time rather than skipped. -/
theorem claim_C7_counterexample :
    createFeatureKey [] ≠ "" ∧
      lookupGet (createLookupCore [([], "greet")]) (createFeatureKey []) =
        some "greet" ∧
      recallStates (createLookupCore [([], "greet")]) [] = some "greet" :=
  ⟨by decide, by decide, by decide⟩

/-- C7 amended: the canonicalizer never returns an empty key (the empty window
serializes like any other window), so the builder's empty-key skip guard never
fires: an empty-window example is stored during training and recalled at
prediction time. -/
theorem claim_C7_amended_key_never_empty :
    (∀ states : List State, createFeatureKey states ≠ "") ∧
    (∀ a : String, recallStates (createLookupCore [([], a)]) [] = some a) := by
  refine ⟨createFeatureKey_ne_empty, fun a => ?_⟩
  exact (createLookupCore_get_iff [([], a)] (createFeatureKey []) a).mpr
    ⟨createFeatureKey_ne_empty [],
     ⟨([], a), List.mem_singleton_self _, rfl, rfl⟩,
     fun e he _ => by rw [List.mem_singleton.mp he]⟩

/-- C9: the canonicalization is not injective: stripping every double quote
from the JSON serialization makes the window whose slot value is the text
made of bracket-a-bracket collide with the window whose slot value is the
one-element tuple of the text a, and an example trained on the first window is
recalled on the second. -/
theorem claim_C9_key_collision :
    [stQ] ≠ [stT] ∧
      createFeatureKey [stQ] = createFeatureKey [stT] ∧
      recallStates (createLookupCore [([stQ], "confirm_booking")]) [stT] =
        some "confirm_booking" :=
  ⟨by decide, by decide, by decide⟩

/-! Lemmas for the truncation search (C5). -/

theorem strip_again_shortens (events next : List Event)
    (h : stripLeadingEventsUntilActionExecuted events true = some next) :
    next.length < events.length := by
  simp only [stripLeadingEventsUntilActionExecuted, Option.bind_eq_some] at h
  obtain ⟨i, hsecond, hi⟩ := h
  by_cases hdrop : events.drop i = []
  · rw [if_pos hdrop] at hi
    exact absurd hi (by simp)
  · rw [if_neg hdrop] at hi
    have hnext : next = events.drop i := (Option.some.inj hi).symm
    have hipos : 1 ≤ i := by
      simp only [idxOfSecondAction, Option.bind_eq_some, Option.map_eq_some']
        at hsecond
      obtain ⟨i0, _, j, _, hij⟩ := hsecond
      omega
    have hlt : i < events.length := by
      by_contra hge
      exact hdrop (List.drop_eq_nil_of_le (by omega))
    have hlen := List.length_drop i events
    rw [hnext]
    omega

theorem strip_isSuffix (events next : List Event) (again : Bool)
    (h : stripLeadingEventsUntilActionExecuted events again = some next) :
    next <:+ events := by
  simp only [stripLeadingEventsUntilActionExecuted, Option.bind_eq_some] at h
  obtain ⟨i, _, hi⟩ := h
  by_cases hdrop : events.drop i = []
  · rw [if_pos hdrop] at hi
    exact absurd hi (by simp)
  · rw [if_neg hdrop] at hi
    rw [← Option.some.inj hi]
    exact List.drop_suffix i events

theorem trim_isSuffix (events : List Event) (mh : Option Nat) :
    trimTrackerByMaxHistory events mh <:+ events := by
  unfold trimTrackerByMaxHistory
  split
  · exact List.suffix_refl _
  · split
    · exact List.suffix_refl _
    · exact List.drop_suffix _ _

theorem recallLoop_hit (lookup : LookupTable) (ps : List Event → List State)
    {oldStates : List State} {events : List Event} {m : String}
    (h1 : oldStates ≠ ps events)
    (h2 : recallStates lookup (ps events) = some m) :
    recallLoop lookup ps oldStates events = some m := by
  rw [recallLoop, if_pos h1, h2]

theorem recallLoop_miss_next (lookup : LookupTable) (ps : List Event → List State)
    {oldStates : List State} {events next : List Event}
    (h1 : oldStates ≠ ps events)
    (h2 : recallStates lookup (ps events) = none)
    (h3 : stripLeadingEventsUntilActionExecuted events true = some next) :
    recallLoop lookup ps oldStates events = recallLoop lookup ps (ps events) next := by
  rw [recallLoop, if_pos h1, h2]
  split
  · next heq => exact absurd heq.symm (by simp)
  · split
    · next heq => rw [h3] at heq; exact absurd heq (by simp)
    · next nx heq =>
        rw [h3] at heq
        rw [Option.some.inj heq]

theorem recallLoop_miss_none (lookup : LookupTable) (ps : List Event → List State)
    {oldStates : List State} {events : List Event}
    (h1 : oldStates ≠ ps events)
    (h2 : recallStates lookup (ps events) = none)
    (h3 : stripLeadingEventsUntilActionExecuted events true = none) :
    recallLoop lookup ps oldStates events = none := by
  rw [recallLoop, if_pos h1, h2]
  split
  · next heq => exact absurd heq.symm (by simp)
  · split
    · rfl
    · next nx heq => rw [h3] at heq; exact absurd heq (by simp)

theorem recallLoop_same_next (lookup : LookupTable) (ps : List Event → List State)
    {oldStates : List State} {events next : List Event}
    (h1 : ¬ oldStates ≠ ps events)
    (h3 : stripLeadingEventsUntilActionExecuted events true = some next) :
    recallLoop lookup ps oldStates events = recallLoop lookup ps oldStates next := by
  rw [recallLoop, if_neg h1]
  split
  · next heq => rw [h3] at heq; exact absurd heq (by simp)
  · next nx heq =>
      rw [h3] at heq
      rw [Option.some.inj heq]

theorem recallLoop_same_none (lookup : LookupTable) (ps : List Event → List State)
    {oldStates : List State} {events : List Event}
    (h1 : ¬ oldStates ≠ ps events)
    (h3 : stripLeadingEventsUntilActionExecuted events true = none) :
    recallLoop lookup ps oldStates events = none := by
  rw [recallLoop, if_neg h1]
  split
  · rfl
  · next nx heq => rw [h3] at heq; exact absurd heq (by simp)

theorem recallLoop_sound (lookup : LookupTable) (ps : List Event → List State) :
    ∀ (n : Nat) (oldStates : List State) (events : List Event),
      events.length ≤ n →
      recallLoop lookup ps oldStates events = none ∨
      ∃ evs a, recallLoop lookup ps oldStates events = some a ∧
        evs <:+ events ∧ recallStates lookup (ps evs) = some a := by
  intro n
  induction n with
  | zero =>
      intro old events hlen
      have hev : events = [] := List.length_eq_zero.mp (Nat.le_zero.mp hlen)
      subst hev
      have hstrip : stripLeadingEventsUntilActionExecuted [] true = none := rfl
      by_cases hold : old ≠ ps []
      · cases hrec : recallStates lookup (ps []) with
        | some m =>
            exact Or.inr ⟨[], m, recallLoop_hit lookup ps hold hrec,
              List.suffix_refl _, hrec⟩
        | none => exact Or.inl (recallLoop_miss_none lookup ps hold hrec hstrip)
      · exact Or.inl (recallLoop_same_none lookup ps hold hstrip)
  | succ n ih =>
      intro old events hlen
      by_cases hold : old ≠ ps events
      · cases hrec : recallStates lookup (ps events) with
        | some m =>
            exact Or.inr ⟨events, m, recallLoop_hit lookup ps hold hrec,
              List.suffix_refl _, hrec⟩
        | none =>
            cases hstrip : stripLeadingEventsUntilActionExecuted events true with
            | none => exact Or.inl (recallLoop_miss_none lookup ps hold hrec hstrip)
            | some next =>
                have hlt := strip_again_shortens events next hstrip
                rw [recallLoop_miss_next lookup ps hold hrec hstrip]
                rcases ih (ps events) next (by omega) with hnone | ⟨evs, a, heq, hsuf, hrec2⟩
                · exact Or.inl hnone
                · exact Or.inr ⟨evs, a, heq,
                    hsuf.trans (strip_isSuffix events next true hstrip), hrec2⟩
      · cases hstrip : stripLeadingEventsUntilActionExecuted events true with
        | none => exact Or.inl (recallLoop_same_none lookup ps hold hstrip)
        | some next =>
            have hlt := strip_again_shortens events next hstrip
            rw [recallLoop_same_next lookup ps hold hstrip]
            rcases ih old next (by omega) with hnone | ⟨evs, a, heq, hsuf, hrec2⟩
            · exact Or.inl hnone
            · exact Or.inr ⟨evs, a, heq,
                hsuf.trans (strip_isSuffix events next true hstrip), hrec2⟩

/-- C5: the time-travel search terminates on every finite log: each truncation
step strictly shortens the remaining log (it advances past at least one
executed action), and the search returns either an action recalled from some
suffix of the log or none. -/
theorem claim_C5_truncation_terminates :
    (∀ events next : List Event,
      stripLeadingEventsUntilActionExecuted events true = some next →
      next.length < events.length) ∧
    (∀ (lookup : LookupTable) (ps : List Event → List State) (mh : Option Nat)
        (oldStates : List State) (events : List Event),
      recallUsingTruncation lookup ps mh oldStates events = none ∨
      ∃ evs a, recallUsingTruncation lookup ps mh oldStates events = some a ∧
        evs <:+ events ∧ recallStates lookup (ps evs) = some a) := by
  refine ⟨strip_again_shortens, fun lookup ps mh old events => ?_⟩
  cases hstrip : stripLeadingEventsUntilActionExecuted
      (trimTrackerByMaxHistory events mh) false with
  | none =>
      left
      unfold recallUsingTruncation
      rw [hstrip]
  | some t =>
      have hsufft : t <:+ events :=
        (strip_isSuffix _ _ _ hstrip).trans (trim_isSuffix events mh)
      have hres : recallUsingTruncation lookup ps mh old events =
          recallLoop lookup ps old t := by
        unfold recallUsingTruncation
        rw [hstrip]
      rw [hres]
      rcases recallLoop_sound lookup ps t.length old t (le_refl _) with
        hnone | ⟨evs, a, heq, hsuf, hrec⟩
      · exact Or.inl hnone
      · exact Or.inr ⟨evs, a, heq, hsuf.trans hsufft, hrec⟩

theorem claim_C5_witness : (log5.drop 2).length < log5.length :=
  claim_C5_truncation_terminates.1 log5 (log5.drop 2) (by decide)

/-- C10: a max history of 0 falls into the same falsy guard as an unset max
history, so trimming with 0 keeps the whole event log. -/
theorem claim_C10_zero_max_history_keeps_log (events : List Event) :
    trimTrackerByMaxHistory events (some 0) = events ∧
    trimTrackerByMaxHistory events (some 0) =
      trimTrackerByMaxHistory events none := by
  exact ⟨rfl, rfl⟩

/-! Lemmas for the prediction vector (C8). -/

theorem listIndex_lt_length {name : String} :
    ∀ {l : List String} {i : Nat}, listIndex name l = some i → i < l.length := by
  intro l
  induction l with
  | nil => intro i h; simp [listIndex] at h
  | cons a rest ih =>
      intro i h
      by_cases ha : a = name
      · simp only [listIndex, if_pos ha] at h
        have : i = 0 := (Option.some.inj h).symm
        simp [this]
      · simp only [listIndex, if_neg ha, Option.map_eq_some'] at h
        obtain ⟨j, hj, hji⟩ := h
        have := ih hj
        simp only [List.length_cons]
        omega

/-- C8: on a recall hit for an action of the domain, the prediction is the
all-zero vector of the size of the action space with the recalled action's
index set to 1 (or to the supplied understanding confidence when that option
is enabled); on a recall miss, the prediction is the default vector. -/
theorem claim_C8_prediction_vector (d : Domain) (useNlu : Bool)
    (conf : Option ℚ) :
    (∀ (lookup : LookupTable) (states : List State),
      recallStates lookup states = none →
      predictActionProbabilities lookup d useNlu conf states =
        Except.ok (defaultPredictions d)) ∧
    (∀ (lookup : LookupTable) (states : List State) (name : String) (i : Nat),
      recallStates lookup states = some name → name ≠ "" →
      indexForAction d name = some i →
      predictActionProbabilities lookup d useNlu conf states =
        Except.ok ((defaultPredictions d).set i
          (if useNlu then conf.getD 1 else 1)) ∧
      ((defaultPredictions d).set i
          (if useNlu then conf.getD 1 else 1)).length = d.actionNames.length ∧
      ((defaultPredictions d).set i
          (if useNlu then conf.getD 1 else 1))[i]? =
        some (if useNlu then conf.getD 1 else 1) ∧
      (∀ j, j < d.actionNames.length → j ≠ i →
        ((defaultPredictions d).set i
            (if useNlu then conf.getD 1 else 1))[j]? = some 0)) := by
  constructor
  · intro lookup states hmiss
    simp [predictActionProbabilities, hmiss]
  · intro lookup states name i hrec hname hidx
    have hlt : i < d.actionNames.length := listIndex_lt_length hidx
    have hlen : (defaultPredictions d).length = d.actionNames.length := by
      simp [defaultPredictions]
    refine ⟨?_, ?_, ?_, ?_⟩
    · simp [predictActionProbabilities, hrec, predictionResult, hname,
        indexForAction] at *
      simp [hidx]
    · simp [List.length_set, hlen]
    · rw [List.getElem?_set_self (by omega)]
    · intro j hj hji
      rw [List.getElem?_set_ne (fun hc => hji hc.symm)]
      simp only [defaultPredictions]
      exact List.getElem?_replicate_of_lt hj

theorem claim_C8_witness :
    predictActionProbabilities lookupW domainW true (some (1/2)) [stA] =
      Except.ok ((defaultPredictions domainW).set 1
        (if true then (some ((1 : ℚ)/2)).getD 1 else 1)) :=
  ((claim_C8_prediction_vector domainW true (some (1/2))).2 lookupW [stA]
    "greet" 1 (by decide) (by decide) (by decide)).1

/-! Lemmas for the history trimmer (C4). -/

theorem countActions_cons (e : Event) (l : List Event) :
    countActions (e :: l) =
      (if isActionExecuted e then 1 else 0) + countActions l := by
  cases he : isActionExecuted e <;>
    simp [countActions, List.filter_cons, he, Nat.add_comm]

theorem countActions_reverse (l : List Event) :
    countActions l.reverse = countActions l := by
  simp [countActions]

theorem countActions_reverse_take (events : List Event) (k : Nat)
    (hk : k ≤ events.length) :
    countActions (events.reverse.take k) =
      countActions (events.drop (events.length - k)) := by
  have h2 : events.reverse = (events.drop (events.length - k)).reverse ++
      (events.take (events.length - k)).reverse := by
    rw [← List.reverse_append, List.take_append_drop]
  have h3 : (events.drop (events.length - k)).reverse.length = k := by
    simp
    omega
  rw [h2, List.take_left' h3, countActions_reverse]

theorem head?_drop_eq (l : List Event) (n : Nat) (h : n < l.length) :
    (l.drop n).head? = l[n]? := by
  rw [List.drop_eq_getElem_cons h, List.head?_cons, List.getElem?_eq_getElem h]

theorem boundaryCond_one (mh : Nat) (e : Event) (rest : List Event) (na : Nat) :
    boundaryCond mh (e :: rest) na 1 ↔
      (e = listenEvent ∧ mh < na + (if isActionExecuted e then 1 else 0)) := by
  unfold boundaryCond
  constructor
  · rintro ⟨h1, h2⟩
    have he : e = listenEvent := by simpa using h1
    subst he
    refine ⟨rfl, ?_⟩
    simpa [countActions, listenEvent, isActionExecuted] using h2
  · rintro ⟨he, h2⟩
    subst he
    refine ⟨by simp, ?_⟩
    simpa [countActions, listenEvent, isActionExecuted] using h2

theorem boundaryCond_cons_succ (mh : Nat) (e : Event) (rest : List Event)
    (na m : Nat) :
    boundaryCond mh (e :: rest) na (m + 2) ↔
      boundaryCond mh rest (na + (if isActionExecuted e then 1 else 0))
        (m + 1) := by
  unfold boundaryCond
  constructor
  · rintro ⟨h1, h2⟩
    refine ⟨by simpa using h1, ?_⟩
    rw [List.take_succ_cons, countActions_cons] at h2
    omega
  · rintro ⟨h1, h2⟩
    refine ⟨by simpa using h1, ?_⟩
    rw [List.take_succ_cons, countActions_cons]
    omega

theorem getMaxGo_some_spec (mh : Nat) :
    ∀ (l : List Event) (ne na n : Nat),
      getMaxGo mh l ne na = some n →
      ∃ k, 1 ≤ k ∧ k ≤ l.length ∧ n = ne + k ∧ boundaryCond mh l na k ∧
        ∀ m, 1 ≤ m → m < k → ¬ boundaryCond mh l na m := by
  intro l
  induction l with
  | nil => intro ne na n h; simp [getMaxGo] at h
  | cons e rest ih =>
      intro ne na n h
      cases e with
      | actionExecuted name =>
          simp only [getMaxGo] at h
          by_cases hcond : mh < na + 1 ∧ name = some actionListenName
          · rw [if_pos hcond] at h
            have hn : n = ne + 1 := (Option.some.inj h).symm
            refine ⟨1, le_refl 1, by simp, hn, ?_, fun m h1 h2 => by omega⟩
            rw [boundaryCond_one]
            refine ⟨by rw [hcond.2]; rfl, ?_⟩
            have := hcond.1
            simp only [isActionExecuted, if_pos]
            omega
          · rw [if_neg hcond] at h
            obtain ⟨k, hk1, hk2, hkn, hbc, hmin⟩ := ih (ne + 1) (na + 1) n h
            refine ⟨k + 1, by omega, by simp only [List.length_cons]; omega,
              by omega, ?_, ?_⟩
            · obtain ⟨k', rfl⟩ : ∃ k', k = k' + 1 := ⟨k - 1, by omega⟩
              rw [boundaryCond_cons_succ]
              simpa [isActionExecuted] using hbc
            · intro m hm1 hm2
              rcases Nat.lt_or_ge m 2 with hm | hm
              · have hm0 : m = 1 := by omega
                subst hm0
                rw [boundaryCond_one]
                rintro ⟨he, hcnt⟩
                apply hcond
                refine ⟨by simpa [isActionExecuted] using hcnt, ?_⟩
                injection he with hname
              · obtain ⟨m', rfl⟩ : ∃ m', m = m' + 2 := ⟨m - 2, by omega⟩
                rw [boundaryCond_cons_succ]
                have hmm := hmin (m' + 1) (by omega) (by omega)
                simpa [isActionExecuted] using hmm
      | other tag =>
          simp only [getMaxGo] at h
          obtain ⟨k, hk1, hk2, hkn, hbc, hmin⟩ := ih (ne + 1) na n h
          refine ⟨k + 1, by omega, by simp only [List.length_cons]; omega,
            by omega, ?_, ?_⟩
          · obtain ⟨k', rfl⟩ : ∃ k', k = k' + 1 := ⟨k - 1, by omega⟩
            rw [boundaryCond_cons_succ]
            simpa [isActionExecuted] using hbc
          · intro m hm1 hm2
            rcases Nat.lt_or_ge m 2 with hm | hm
            · have hm0 : m = 1 := by omega
              subst hm0
              rw [boundaryCond_one]
              rintro ⟨he, _⟩
              exact absurd he (by simp [listenEvent])
            · obtain ⟨m', rfl⟩ : ∃ m', m = m' + 2 := ⟨m - 2, by omega⟩
              rw [boundaryCond_cons_succ]
              have hmm := hmin (m' + 1) (by omega) (by omega)
              simpa [isActionExecuted] using hmm

/-- C4 counterexample: with max_history = 2 on a five-turn log the trimmed log
is the last two full turns, which contain four executed-action events — more
than the claimed bound of at most two executed actions. -/
theorem claim_C4_counterexample :
    trimTrackerByMaxHistory log5 (some 2) = turnEvents "4" ++ turnEvents "5" ∧
    countActions (trimTrackerByMaxHistory log5 (some 2)) = 4 ∧
    ¬ countActions (trimTrackerByMaxHistory log5 (some 2)) ≤ 2 :=
  ⟨by decide, by decide, by decide⟩

/-- C4 amended: for a positive max history, the trimmer returns a suffix of the
log; when it truncates at all, the result starts exactly at the most recent
utterance-boundary (`action_listen`) executed action past which **more** than
`maxTurns` executed-action events are included — so the trimmed log holds more
than `maxTurns` executed actions, and every shorter suffix starting at an
utterance boundary holds at most `maxTurns` of them.  In particular, with
max_history = 2 and a five-turn log, the result is the last two turns (four
executed actions), not the whole log. -/
theorem claim_C4_trim_to_listen_boundary (events : List Event) (mh : Nat)
    (hmh : mh ≠ 0) :
    trimTrackerByMaxHistory events (some mh) <:+ events ∧
    (trimTrackerByMaxHistory events (some mh) = events ∨
      ((trimTrackerByMaxHistory events (some mh)).head? = some listenEvent ∧
       mh < countActions (trimTrackerByMaxHistory events (some mh)) ∧
       ∀ s : List Event, s <:+ events →
         s.length < (trimTrackerByMaxHistory events (some mh)).length →
         s.head? = some listenEvent → countActions s ≤ mh)) := by
  have hgm : getMaxAppliedEventsForMaxHistory events (some mh) =
      getMaxGo mh events.reverse 0 0 := by
    show (if mh = 0 then none else getMaxGo mh events.reverse 0 0) = _
    rw [if_neg hmh]
  refine ⟨trim_isSuffix events (some mh), ?_⟩
  cases hgo : getMaxGo mh events.reverse 0 0 with
  | none =>
      left
      unfold trimTrackerByMaxHistory
      rw [hgm, hgo]
  | some n =>
      obtain ⟨k, hk1, hk2, hkn, hbc, hmin⟩ :=
        getMaxGo_some_spec mh events.reverse 0 0 n hgo
      rw [List.length_reverse] at hk2
      rw [Nat.zero_add] at hkn
      rw [hkn] at hgo
      have htrim : trimTrackerByMaxHistory events (some mh) =
          events.drop (events.length - k) := by
        unfold trimTrackerByMaxHistory
        rw [hgm, hgo]
        show (if k = 0 then events else events.drop (events.length - k)) = _
        rw [if_neg (by omega)]
      rw [htrim]
      right
      obtain ⟨hbc1, hbc2⟩ := hbc
      have hhead : (events.drop (events.length - k)).head? = some listenEvent := by
        rw [head?_drop_eq events (events.length - k) (by omega), ← hbc1,
          List.getElem?_reverse (l := events) (i := k - 1) (by omega)]
        have harith : events.length - 1 - (k - 1) = events.length - k := by omega
        rw [harith]
      have hcount : countActions (events.drop (events.length - k)) =
          countActions (events.reverse.take k) :=
        (countActions_reverse_take events k hk2).symm
      refine ⟨hhead, ?_, ?_⟩
      · rw [hcount]
        omega
      · intro s hsuf hslen hshead
        by_contra hgt
        push_neg at hgt
        obtain ⟨t, ht⟩ := hsuf
        have hsl : s.length ≤ events.length := by
          rw [← ht]
          simp
        have hs : s = events.drop (events.length - s.length) := by
          conv_rhs => rw [← ht]
          have harith : (t ++ s).length - s.length = t.length := by simp
          rw [harith, List.drop_left]
        have hm1 : 1 ≤ s.length := by
          cases s with
          | nil => simp at hshead
          | cons a l => simp only [List.length_cons]; omega
        have hbcm : boundaryCond mh events.reverse 0 s.length := by
          constructor
          · rw [List.getElem?_reverse (by omega)]
            have harith : events.length - 1 - (s.length - 1) =
                events.length - s.length := by omega
            rw [harith,
              ← head?_drop_eq events (events.length - s.length) (by omega),
              ← hs]
            exact hshead
          · rw [Nat.zero_add, countActions_reverse_take events s.length hsl,
              ← hs]
            exact hgt
        have hklen : (events.drop (events.length - k)).length = k := by
          simp
          omega
        rw [hklen] at hslen
        exact hmin s.length hm1 hslen hbcm

theorem claim_C4_witness :
    trimTrackerByMaxHistory log5 (some 2) <:+ log5 :=
  (claim_C4_trim_to_listen_boundary log5 2 (by decide)).1
